import Mathlib

/-!
Verification of the `quantum-stdlib` sequence, math and string modules.

The Rust code is shallowly embedded: the `Vector<T>` wrapper around `Vec<T>`
(src/vector.rs) becomes a structure holding a `List T`; every mutating Rust
method (`&mut self`, returning `Result`/`Option`) becomes a function from the
vector to a pair of the returned value and the post-state, with the error path
returning the receiver unchanged, exactly as the Rust error branches leave
`self` untouched.  `u64` indices are modelled as `Nat`: on the 64-bit targets
the crate supports, `index as usize` is lossless, and a `Vec` length always
fits in `u64`.  Capacity is an allocation hint with no observable effect, so
`with_capacity` stores nothing beyond the (empty) element list.
-/

/-- Error messages in the Rust code are `std::string::String`; we model them
with Lean strings.  The alias keeps them reachable inside the namespace, where
the bare name `String` denotes the crate's own string type. -/
abbrev ErrMsg := String

namespace QuantumStd

/-- `Vector<T>` from src/vector.rs: a wrapper around a growable array,
modelled by its list of elements in storage order. -/
structure Vector (T : Type) where
  elements : List T
deriving DecidableEq, Repr

namespace Vector

/-- `Vector::new` (src/vector.rs line 34). -/
def new (T : Type) : Vector T := ⟨[]⟩

/-- `Vector::with_capacity` (src/vector.rs line 54): `capacity` is only an
allocation hint passed to `Vec::with_capacity`; the element list is empty. -/
def with_capacity (T : Type) (capacity : Nat) : Vector T := ⟨[]⟩

/-- `Vector::len` (src/vector.rs line 72). -/
def len (v : Vector T) : Nat := v.elements.length

/-- `Vector::is_empty` (src/vector.rs line 86). -/
def is_empty (v : Vector T) : Bool := v.elements.isEmpty

/-- `Vector::push` (src/vector.rs line 105): `Vec::push` appends at the end
and returns `()`; the new state is the only observable. -/
def push (v : Vector T) (value : T) : Vector T := ⟨v.elements ++ [value]⟩

/-- `Vector::pop` (src/vector.rs line 126): `Vec::pop` removes and returns
the last element, or returns `None` leaving the vector untouched. -/
def pop (v : Vector T) : Option T × Vector T :=
  match v.elements.getLast? with
  | none => (none, v)
  | some x => (some x, ⟨v.elements.dropLast⟩)

/-- `Vector::get` (src/vector.rs line 151): `Vec::get`, `None` out of bounds. -/
def get (v : Vector T) (index : Nat) : Option T := v.elements[index]?

/-- The out-of-bounds message `format!("Index out of bounds: {} >= {}", i, len)`
built by `set`, `swap` and `remove`. -/
def oobMsg (i n : Nat) : ErrMsg :=
  "Index out of bounds: " ++ toString i ++ " >= " ++ toString n

/-- `Vector::set` (src/vector.rs lines 204-216): overwrite in bounds, else
an out-of-bounds error with `self` untouched. -/
def set (v : Vector T) (index : Nat) (value : T) : Except ErrMsg Unit × Vector T :=
  if index < v.elements.length then
    (.ok (), ⟨v.elements.set index value⟩)
  else
    (.error (oobMsg index v.elements.length), v)

/-- `Vector::swap` (src/vector.rs lines 242-256): both indices are checked
against `len` (the first one first), then `slice::swap` exchanges the slots. -/
def swap (v : Vector T) (i j : Nat) : Except ErrMsg Unit × Vector T :=
  if hi : v.elements.length ≤ i then
    (.error (oobMsg i v.elements.length), v)
  else if hj : v.elements.length ≤ j then
    (.error (oobMsg j v.elements.length), v)
  else
    (.ok (), ⟨(v.elements.set i (v.elements.get ⟨j, by omega⟩)).set j
        (v.elements.get ⟨i, by omega⟩)⟩)

/-- `Vector::remove` (src/vector.rs lines 281-292): `Vec::remove` returns the
element at `index` and shifts the suffix left; out of bounds is an error. -/
def remove (v : Vector T) (index : Nat) : Except ErrMsg T × Vector T :=
  if h : index < v.elements.length then
    (.ok (v.elements.get ⟨index, h⟩), ⟨v.elements.eraseIdx index⟩)
  else
    (.error (oobMsg index v.elements.length), v)

/-- `Vector::insert` (src/vector.rs lines 317-329): `Vec::insert` shifts the
elements at and after `index` right; valid range is `index <= len`, and the
error message uses `>` rather than `>=`. -/
def insert (v : Vector T) (index : Nat) (value : T) : Except ErrMsg Unit × Vector T :=
  if index ≤ v.elements.length then
    (.ok (), ⟨v.elements.insertIdx index value⟩)
  else
    (.error ("Index out of bounds: " ++ toString index ++ " > "
        ++ toString v.elements.length), v)

/-- `Vector::clear` (src/vector.rs line 344). -/
def clear (v : Vector T) : Vector T := ⟨[]⟩

/-- `Vector::contains` (src/vector.rs line 370), for element types with
decidable equality (Rust's `PartialEq` bound). -/
def contains [DecidableEq T] (v : Vector T) (value : T) : Bool :=
  v.elements.contains value

/-- `Vector::reverse` (src/vector.rs line 393). -/
def reverse (v : Vector T) : Vector T := ⟨v.elements.reverse⟩

/-- `Vector::from_vec` (src/vector.rs line 470). -/
def from_vec (elems : List T) : Vector T := ⟨elems⟩

end Vector

/-- Overwriting a slot with the value it already holds is the identity. -/
theorem list_set_self {T : Type} (l : List T) :
    ∀ (n : Nat) (h : n < l.length), l.set n l[n] = l := by
  induction l with
  | nil => intro n h; simp at h
  | cons a t ih =>
    intro n h
    cases n with
    | zero => simp
    | succ m =>
      simp only [List.set_cons_succ, List.getElem_cons_succ, List.cons.injEq, true_and]
      exact ih m (by simpa using h)

/-- Erasing the slot that was just overwritten erases the overwriting. -/
theorem list_eraseIdx_set {T : Type} (l : List T) :
    ∀ (i : Nat) (x : T), (l.set i x).eraseIdx i = l.eraseIdx i := by
  induction l with
  | nil => intro i x; rfl
  | cons a t ih =>
    intro i x
    cases i with
    | zero => rfl
    | succ m =>
      simp only [List.set_cons_succ, List.eraseIdx_cons_succ, List.cons.injEq, true_and]
      exact ih m x

/-- C1: for `index >= length()`, each of `set`, `remove` and `swap(index, j)`
fails with an out-of-bounds error and returns the vector unchanged, and
`insert` with `index > length()` does the same. -/
theorem c1_oob_mutations_fail_unchanged (T : Type) (v : Vector T)
    (index j : Nat) (x : T) (h : v.len ≤ index) :
    v.set index x = (.error (Vector.oobMsg index v.len), v) ∧
    v.remove index = (.error (Vector.oobMsg index v.len), v) ∧
    v.swap index j = (.error (Vector.oobMsg index v.len), v) ∧
    (v.len < index → v.insert index x =
      (.error ("Index out of bounds: " ++ toString index ++ " > " ++ toString v.len), v)) := by
  simp only [Vector.len] at h ⊢
  refine ⟨?_, ?_, ?_, ?_⟩
  · rw [Vector.set, if_neg (by omega)]
  · rw [Vector.remove, dif_neg (by omega)]
  · rw [Vector.swap, dif_pos (by omega)]
  · intro h2
    rw [Vector.insert, if_neg (by omega)]

/-- Witness for C1 at the one-element vector `[5]`, `index = 1`, `j = 0`. -/
theorem c1_witness :
    (Vector.from_vec [5]).len ≤ 1 ∧
    (Vector.from_vec [5]).set 1 7 =
      (.error (Vector.oobMsg 1 (Vector.from_vec [5]).len), Vector.from_vec [5]) :=
  ⟨by decide, (c1_oob_mutations_fail_unchanged Nat (Vector.from_vec [5]) 1 0 7 (by decide)).1⟩

/-- C2: `push(v)` always succeeds (it is a total function on the model),
increases the length by exactly 1, stores `v` at the new last index, and
leaves every previously stored element at its old index. -/
theorem c2_push_appends (T : Type) (v : Vector T) (x : T) :
    (v.push x).len = v.len + 1 ∧
    (v.push x).get ((v.push x).len - 1) = some x ∧
    (∀ i, i < v.len → (v.push x).get i = v.get i) := by
  refine ⟨by simp [Vector.push, Vector.len], ?_, ?_⟩
  · show (v.elements ++ [x])[(v.elements ++ [x]).length - 1]? = some x
    simp only [List.length_append, List.length_cons, List.length_nil]
    have : v.elements.length + (0 + 1) - 1 = v.elements.length := by omega
    rw [this, List.getElem?_concat_length]
  · intro i hi
    have hi' : i < v.elements.length := hi
    show (v.elements ++ [x])[i]? = v.elements[i]?
    rw [List.getElem?_append, if_pos hi']

/-- Witness for C2 at `[1, 2]` with `x = 9`, checking index 0 is preserved. -/
theorem c2_witness :
    (0 : Nat) < (Vector.from_vec [1, 2]).len ∧
    ((Vector.from_vec [1, 2]).push 9).get 0 = (Vector.from_vec [1, 2]).get 0 :=
  ⟨by decide, (c2_push_appends Nat (Vector.from_vec [1, 2]) 9).2.2 0 (by decide)⟩

/-- C3: for `index <= length()`, `insert(index, v)` succeeds, the following
`remove(index)` succeeds returning `v`, and the vector afterwards equals the
vector before the insert (round trip). -/
theorem c3_insert_remove_roundtrip (T : Type) (v : Vector T) (i : Nat) (x : T)
    (h : i ≤ v.len) :
    (v.insert i x).1 = .ok () ∧
    ((v.insert i x).2.remove i).1 = .ok x ∧
    ((v.insert i x).2.remove i).2 = v := by
  obtain ⟨l⟩ := v
  simp only [Vector.len] at h
  have hins : (Vector.mk l).insert i x = (.ok (), ⟨List.insertIdx i x l⟩) := by
    rw [Vector.insert, if_pos h]
  rw [hins]
  have hlen : i < (List.insertIdx i x l).length := by
    rw [List.length_insertIdx i l h]; omega
  refine ⟨rfl, ?_, ?_⟩
  · show ((Vector.mk (List.insertIdx i x l)).remove i).1 = .ok x
    rw [Vector.remove, dif_pos hlen]
    simp only [List.get_eq_getElem]
    rw [List.getElem_insertIdx_self l x i h]
  · show ((Vector.mk (List.insertIdx i x l)).remove i).2 = Vector.mk l
    rw [Vector.remove, dif_pos hlen]
    simp only [List.eraseIdx_insertIdx]

/-- Witness for C3 at `[1, 2]`, inserting 9 at index 1. -/
theorem c3_witness :
    (1 : Nat) ≤ (Vector.from_vec [1, 2]).len ∧
    (((Vector.from_vec [1, 2]).insert 1 9).2.remove 1).1 = .ok 9 :=
  ⟨by decide, (c3_insert_remove_roundtrip Nat (Vector.from_vec [1, 2]) 1 9 (by decide)).2.1⟩

/-- C4: `pop()` on an empty vector returns `None` (a normal absent value, not
an error) and leaves the vector — hence its length — unchanged; on a
non-empty vector it returns the last element (the most recently pushed one
not yet removed) and decreases the length by 1; in particular pop undoes
push, and the `with_capacity(5)` scenario gives length 0. -/
theorem c4_pop_spec (T : Type) (v : Vector T) (x : T) :
    (v.len = 0 → v.pop = (none, v)) ∧
    (0 < v.len → v.pop.1 = v.get (v.len - 1) ∧ v.pop.2.len = v.len - 1) ∧
    (v.push x).pop = (some x, v) ∧
    (Vector.with_capacity T 5).pop = (none, Vector.with_capacity T 5) ∧
    (Vector.with_capacity T 5).len = 0 := by
  refine ⟨?_, ?_, ?_, rfl, rfl⟩
  · intro h
    have he : v.elements = [] := List.length_eq_zero.mp h
    rw [Vector.pop, he]
    rfl
  · intro h
    have h' : 0 < v.elements.length := h
    have hidx : v.elements.length - 1 < v.elements.length := by omega
    have ha : v.elements.getLast? = some (v.elements.get ⟨v.elements.length - 1, hidx⟩) := by
      rw [List.getLast?_eq_getElem?, List.getElem?_eq_getElem hidx]
      simp
    rw [Vector.pop, ha]
    refine ⟨?_, ?_⟩
    · show some (v.elements.get ⟨v.elements.length - 1, hidx⟩)
        = v.elements[v.elements.length - 1]?
      rw [List.getElem?_eq_getElem hidx]
      simp
    · show v.elements.dropLast.length = v.elements.length - 1
      simp
  · show (Vector.mk (v.elements ++ [x])).pop = (some x, v)
    rw [Vector.pop]
    show (match (v.elements ++ [x]).getLast? with
      | none => (none, Vector.mk (v.elements ++ [x]))
      | some y => (some y, Vector.mk (v.elements ++ [x]).dropLast)) = (some x, v)
    rw [List.getLast?_concat]
    simp only [List.dropLast_concat]

/-- Witness for C4 at the empty vector. -/
theorem c4_witness :
    (Vector.new Nat).len = 0 ∧ (Vector.new Nat).pop = (none, Vector.new Nat) :=
  ⟨rfl, (c4_pop_spec Nat (Vector.new Nat) 0).1 rfl⟩

/-- C5 counterexample: on the empty vector, `swap(0, 0)` does not succeed —
it fails with an out-of-bounds error, refuting "for every sequence and every
index i, swap(i, i) succeeds as a no-op". -/
theorem c5_counterexample :
    ((Vector.from_vec ([] : List Nat)).swap 0 0).1 = .error (Vector.oobMsg 0 0) := by
  rfl

/-- C5 amended: for every index `i < length()`, `swap(i, i)` succeeds as a
no-op, returning `Ok` and leaving the vector unchanged. -/
theorem c5_swap_self_noop (T : Type) (v : Vector T) (i : Nat) (h : i < v.len) :
    v.swap i i = (.ok (), v) := by
  have h' : i < v.elements.length := h
  rw [Vector.swap, dif_neg (Nat.not_le.mpr h'), dif_neg (Nat.not_le.mpr h')]
  simp only [Prod.mk.injEq, Vector.mk.injEq, true_and]
  simp only [List.get_eq_getElem]
  rw [List.set_set, list_set_self v.elements i h']

/-- Witness for the amended C5 at `[3]`, `i = 0`. -/
theorem c5_witness :
    (0 : Nat) < (Vector.from_vec [3]).len ∧
    (Vector.from_vec [3]).swap 0 0 = (.ok (), Vector.from_vec [3]) :=
  ⟨by decide, c5_swap_self_noop Nat (Vector.from_vec [3]) 0 (by decide)⟩

/-- C6 counterexample: `swap(0, 1)` on `[1, 2]` succeeds, retains both
elements, and yields `[2, 1]`: the retained elements do not keep their
relative order, refuting "order is preserved across every operation except
reverse()". -/
theorem c6_counterexample :
    (Vector.from_vec [1, 2]).swap 0 1 = (.ok (), Vector.from_vec [2, 1]) ∧
    Vector.from_vec [2, 1] ≠ Vector.from_vec ([1, 2] : List Nat) := by
  refine ⟨rfl, by decide⟩

/-- C6 amended: every operation other than `reverse()` and `swap()` keeps the
retained elements in their previous relative order: the vector after `pop`,
`remove` or `clear` is a sublist of the vector before; the vector before
`push` or a successful `insert` is a sublist of the vector after; and a
successful `set(i, x)` changes nothing outside slot `i`. -/
theorem c6_order_preserved_other_ops (T : Type) (v : Vector T) (x : T) (i : Nat) :
    v.elements.Sublist (v.push x).elements ∧
    v.pop.2.elements.Sublist v.elements ∧
    (i ≤ v.len → v.elements.Sublist (v.insert i x).2.elements) ∧
    (i < v.len → (v.remove i).2.elements.Sublist v.elements) ∧
    (i < v.len → (v.set i x).2.elements.eraseIdx i = v.elements.eraseIdx i) ∧
    (v.clear).elements.Sublist v.elements := by
  refine ⟨List.sublist_append_left v.elements [x], ?_, ?_, ?_, ?_,
    List.nil_sublist v.elements⟩
  · rw [Vector.pop]
    cases hl : v.elements.getLast? with
    | none => exact List.Sublist.refl v.elements
    | some a => exact List.dropLast_sublist v.elements
  · intro h
    have h' : i ≤ v.elements.length := h
    rw [Vector.insert, if_pos h']
    have hs := List.eraseIdx_sublist (List.insertIdx i x v.elements) i
    rwa [List.eraseIdx_insertIdx] at hs
  · intro h
    have h' : i < v.elements.length := h
    rw [Vector.remove, dif_pos h']
    exact List.eraseIdx_sublist v.elements i
  · intro h
    have h' : i < v.elements.length := h
    rw [Vector.set, if_pos h']
    exact list_eraseIdx_set v.elements i x

/-- Witness for the amended C6 at `[10, 20, 30]`, removing index 1. -/
theorem c6_witness :
    (1 : Nat) < (Vector.from_vec [10, 20, 30]).len ∧
    ((Vector.from_vec [10, 20, 30]).remove 1).2.elements.Sublist
      (Vector.from_vec [10, 20, 30]).elements :=
  ⟨by decide,
    (c6_order_preserved_other_ops Nat (Vector.from_vec [10, 20, 30]) 9 1).2.2.2.1 (by decide)⟩

/-- C7: `reverse()` keeps the length and is an involution. -/
theorem c7_reverse_involution (T : Type) (v : Vector T) :
    v.reverse.len = v.len ∧ v.reverse.reverse = v := by
  obtain ⟨l⟩ := v
  exact ⟨by simp [Vector.reverse, Vector.len], by simp [Vector.reverse]⟩

/-! ## Math module (src/math.rs)

`u64` values are modelled as `Nat`.  In `isqrt_u64` no intermediate value
exceeds the inputs (`div_ceil` is implemented without the `+1` that could
wrap, and each Newton iterate is bounded by its predecessor), and in
`mod_exp_u64` the two products are computed in `u128`, where they are exact
because both factors are reduced modulo a `u64` modulus; hence plain `Nat`
arithmetic is a faithful model of both routines on `u64` inputs. -/

/-- `u64::div_ceil(n, 2)`, written as Rust computes it (quotient plus a
carry for a nonzero remainder, which cannot overflow). -/
def divCeil2 (n : Nat) : Nat := n / 2 + (if n % 2 = 0 then 0 else 1)

/-- The `while y < x` loop of `isqrt_u64` (src/math.rs lines 116-119); the
recursion is on the strictly decreasing iterate `x`, which is exactly the
termination argument for the Rust loop. -/
def isqrtLoop (n x y : Nat) : Nat :=
  if h : y < x then isqrtLoop n y ((y + n / y) / 2) else x
termination_by x
decreasing_by exact h

/-- `isqrt_u64` (src/math.rs lines 108-122): integer square root by Newton
iteration starting from `x = n`, `y = n.div_ceil(2)`. -/
def isqrt_u64 (n : Nat) : Nat :=
  if n = 0 then 0 else isqrtLoop n n (divCeil2 n)

/-- One Newton step from any positive iterate lands at or above `√n`:
`√n ≤ (y + n / y) / 2` (integer AM-GM). -/
theorem newton_step_ge_sqrt (n y : Nat) (hy : 0 < y) :
    Nat.sqrt n ≤ (y + n / y) / 2 := by
  set s := Nat.sqrt n with hs
  have h1 : s * s ≤ n := Nat.sqrt_le n
  have h2 : s * s / y ≤ n / y := Nat.div_le_div_right h1
  have hamgm : 2 * s * y ≤ s * s + y * y := by
    zify
    nlinarith [sq_nonneg ((y : Int) - (s : Int))]
  have h3 : 2 * s ≤ y + s * s / y := by
    have hdiv : (s * s + y * y) / y = s * s / y + y := by
      rw [Nat.add_mul_div_left _ _ hy]
    have := Nat.div_le_div_right (c := y) hamgm
    rw [hdiv, Nat.mul_div_cancel _ hy] at this
    omega
  have h4 : 2 * s ≤ y + n / y := by omega
  rw [Nat.le_div_iff_mul_le (by omega : 0 < 2)]
  omega

/-- The Newton loop started at any iterate `x ≥ √n` with the step value as
second argument computes exactly `Nat.sqrt n`. -/
theorem isqrtLoop_eq_sqrt (n : Nat) (hn : 0 < n) :
    ∀ x, 0 < x → Nat.sqrt n ≤ x → isqrtLoop n x ((x + n / x) / 2) = Nat.sqrt n := by
  intro x
  induction x using Nat.strong_induction_on with
  | _ x ih =>
    intro hx hsx
    rw [isqrtLoop]
    by_cases h : (x + n / x) / 2 < x
    · rw [dif_pos h]
      have hy : 0 < (x + n / x) / 2 := by
        have hs1 : 0 < Nat.sqrt n := Nat.sqrt_pos.mpr hn
        have := newton_step_ge_sqrt n x hx
        omega
      exact ih _ h hy (newton_step_ge_sqrt n x hx)
    · rw [dif_neg h]
      have hxy : x * 2 ≤ x + n / x := by
        rw [← Nat.le_div_iff_mul_le (by omega : 0 < 2)]
        omega
      have hxn : x ≤ n / x := by omega
      have hxx : x * x ≤ n := by
        calc x * x ≤ n / x * x := Nat.mul_le_mul_right x hxn
        _ ≤ n := Nat.div_mul_le_self n x
      exact Nat.le_antisymm (Nat.le_sqrt.mpr hxx) hsx

/-- C9: `isqrt_u64(n)` terminates for every `u64` input (the Lean model is a
total function whose well-founded recursion on the strictly decreasing
iterate mirrors the loop) and returns the integer square root: `r * r <= n`
and `(r + 1) * (r + 1) > n`. -/
theorem c9_isqrt_correct (n : Nat) (h : n < 2 ^ 64) :
    isqrt_u64 n * isqrt_u64 n ≤ n ∧ n < (isqrt_u64 n + 1) * (isqrt_u64 n + 1) := by
  by_cases hn : n = 0
  · subst hn; simp [isqrt_u64]
  · have hn' : 0 < n := Nat.pos_of_ne_zero hn
    have heq : isqrt_u64 n = Nat.sqrt n := by
      rw [isqrt_u64, if_neg hn]
      have hd : divCeil2 n = (n + n / n) / 2 := by
        rw [Nat.div_self hn', divCeil2]
        by_cases hp : n % 2 = 0
        · rw [if_pos hp]; omega
        · rw [if_neg hp]; omega
      rw [hd]
      exact isqrtLoop_eq_sqrt n hn' n hn' (Nat.sqrt_le_self n)
    rw [heq]
    exact ⟨Nat.sqrt_le n, Nat.lt_succ_sqrt n⟩

/-- Witness for C9 at `n = 10`: `isqrt_u64 10 = 3`, `9 ≤ 10 < 16`. -/
theorem c9_witness :
    (10 : Nat) < 2 ^ 64 ∧
    isqrt_u64 10 * isqrt_u64 10 ≤ 10 ∧ 10 < (isqrt_u64 10 + 1) * (isqrt_u64 10 + 1) :=
  ⟨by norm_num, c9_isqrt_correct 10 (by norm_num)⟩

/-- A `u64` remainder `a % m` made explicit about the failure case: in Rust,
`%` with a zero right-hand side panics. -/
def checkedRem (a m : Nat) : Option Nat :=
  if m = 0 then none else some (a % m)

/-- The square-and-multiply loop of `mod_exp_u64` (src/math.rs lines
242-248): per iteration, multiply the accumulator in when `exp` is odd,
shift `exp` right, and square the base, all modulo `modulus`; every
remainder is routed through `checkedRem` so a zero modulus surfaces as
`none` exactly where Rust would panic. -/
def modExpLoop (modulus result base exp : Nat) : Option Nat :=
  if h : exp = 0 then some result
  else do
    let r ← if exp % 2 = 1 then checkedRem (result * base) modulus else some result
    let b ← checkedRem (base * base) modulus
    modExpLoop modulus r b (exp / 2)
termination_by exp
decreasing_by exact Nat.div_lt_self (Nat.pos_of_ne_zero h) (by omega)

/-- `mod_exp_u64` (src/math.rs lines 234-251): early return `0` for
`modulus == 1`, initial reduction `base %= modulus`, then the loop. -/
def mod_exp_u64 (base exp modulus : Nat) : Option Nat :=
  if modulus = 1 then some 0
  else do
    let b ← checkedRem base modulus
    modExpLoop modulus 1 b exp

/-- The loop computes `result * base ^ exp % modulus` whenever the modulus
is at least 2 and the accumulator is already reduced. -/
theorem modExpLoop_eq (modulus : Nat) (hm : 2 ≤ modulus) :
    ∀ exp result base, result < modulus →
      modExpLoop modulus result base exp = some (result * base ^ exp % modulus) := by
  intro exp
  induction exp using Nat.strong_induction_on with
  | _ exp ih =>
    intro result base hr
    have hm0 : modulus ≠ 0 := by omega
    by_cases h0 : exp = 0
    · subst h0
      rw [modExpLoop, dif_pos rfl]
      simp [Nat.mod_eq_of_lt hr]
    · rw [modExpLoop, dif_neg h0]
      have hrec : exp / 2 < exp := Nat.div_lt_self (Nat.pos_of_ne_zero h0) (by omega)
      by_cases hpar : exp % 2 = 1
      · rw [if_pos hpar]
        simp only [checkedRem, if_neg hm0, Option.bind_eq_bind, Option.some_bind]
        rw [ih _ hrec _ _ (Nat.mod_lt _ (by omega))]
        congr 1
        have hmodeq : result * base % modulus * (base * base % modulus) ^ (exp / 2)
            ≡ result * base * (base * base) ^ (exp / 2) [MOD modulus] :=
          (Nat.mod_modEq _ _).mul ((Nat.mod_modEq _ _).pow _)
        have hexp : result * base * (base * base) ^ (exp / 2) = result * base ^ exp := by
          obtain ⟨k, hk⟩ : ∃ k, exp = 2 * k + 1 := ⟨exp / 2, by omega⟩
          subst hk
          have h2 : (2 * k + 1) / 2 = k := by omega
          rw [h2]
          ring
        rw [hexp] at hmodeq
        exact hmodeq
      · rw [if_neg hpar]
        simp only [checkedRem, if_neg hm0, Option.bind_eq_bind, Option.some_bind]
        rw [ih _ hrec _ _ hr]
        congr 1
        have hmodeq : result * (base * base % modulus) ^ (exp / 2)
            ≡ result * (base * base) ^ (exp / 2) [MOD modulus] :=
          (Nat.ModEq.refl _).mul ((Nat.mod_modEq _ _).pow _)
        have hexp : result * (base * base) ^ (exp / 2) = result * base ^ exp := by
          obtain ⟨k, hk⟩ : ∃ k, exp = 2 * k := ⟨exp / 2, by omega⟩
          subst hk
          have h2 : 2 * k / 2 = k := by omega
          rw [h2]
          ring
        rw [hexp] at hmodeq
        exact hmodeq

/-- C10: for every `modulus >= 1`, `mod_exp_u64(base, exp, modulus)` returns
`(base ^ exp) mod modulus` with every internal remainder well-defined (the
`Option` result is `some`), while `modulus = 0` hits the initial
`base %= modulus` remainder-by-zero, modelled as `none`. -/
theorem c10_mod_exp_correct (base exp modulus : Nat) (h : 1 ≤ modulus) :
    mod_exp_u64 base exp modulus = some (base ^ exp % modulus) ∧
    mod_exp_u64 base exp 0 = none := by
  constructor
  · by_cases h1 : modulus = 1
    · subst h1
      rw [mod_exp_u64, if_pos rfl]
      simp [Nat.mod_one]
    · have hm : 2 ≤ modulus := by omega
      have hm0 : modulus ≠ 0 := by omega
      rw [mod_exp_u64, if_neg h1]
      simp only [checkedRem, if_neg hm0, Option.bind_eq_bind, Option.some_bind]
      rw [modExpLoop_eq modulus hm exp 1 (base % modulus) (by omega)]
      rw [one_mul, ← Nat.pow_mod]
  · rfl

/-- Witness for C10 at `3 ^ 5 mod 7 = 5`. -/
theorem c10_witness :
    (1 : Nat) ≤ 7 ∧
    (mod_exp_u64 3 5 7 = some (3 ^ 5 % 7) ∧ mod_exp_u64 3 5 0 = none) :=
  ⟨by norm_num, c10_mod_exp_correct 3 5 7 (by norm_num)⟩

/-! ## String module (src/string.rs)

The crate's `String` is a raw byte buffer (`Vec<u8>`, bytes modelled as
`Nat`).  `from_bytes` validates with `std::str::from_utf8`; the validator
below is that function's byte-level acceptance condition (RFC 3629 UTF-8:
leading-byte ranges `00..7F`, `C2..DF`, `E0..EF`, `F0..F4`, with the
narrowed first-continuation ranges for `E0`, `ED`, `F0`, `F4` and `80..BF`
continuations elsewhere).  `substring` does no validation: it slices the
byte buffer after pure index-range checks. -/

/-- Continuation byte `0x80..0xBF`. -/
def isCont (b : Nat) : Bool := decide (0x80 ≤ b ∧ b ≤ 0xBF)

/-- Lower bound of the first continuation byte after leading byte `b`. -/
def cLo (b : Nat) : Nat := if b = 0xE0 then 0xA0 else if b = 0xF0 then 0x90 else 0x80

/-- Upper bound of the first continuation byte after leading byte `b`. -/
def cHi (b : Nat) : Nat := if b = 0xED then 0x9F else if b = 0xF4 then 0x8F else 0xBF

/-- First continuation byte after leading byte `b` (range depends on `b`). -/
def isCont1 (b b1 : Nat) : Bool := decide (cLo b ≤ b1 ∧ b1 ≤ cHi b)

mutual

/-- `std::str::from_utf8`'s validity check on a byte sequence: dispatch on
the leading byte's width class, then check that many continuation bytes
(`validTailK` checks `K` of them, the first against the given range). -/
def validUtf8 : List Nat → Bool
  | [] => true
  | b :: r =>
    if b ≤ 0x7F then validUtf8 r
    else if 0xC2 ≤ b ∧ b ≤ 0xDF then validTail1 0x80 0xBF r
    else if 0xE0 ≤ b ∧ b ≤ 0xEF then validTail2 (cLo b) (cHi b) r
    else if 0xF0 ≤ b ∧ b ≤ 0xF4 then validTail3 (cLo b) (cHi b) r
    else false

/-- One continuation byte in `lo..hi`, then a fresh character. -/
def validTail1 (lo hi : Nat) : List Nat → Bool
  | b1 :: r => decide (lo ≤ b1 ∧ b1 ≤ hi) && validUtf8 r
  | [] => false

/-- A continuation byte in `lo..hi`, then one plain continuation byte. -/
def validTail2 (lo hi : Nat) : List Nat → Bool
  | b1 :: r => decide (lo ≤ b1 ∧ b1 ≤ hi) && validTail1 0x80 0xBF r
  | [] => false

/-- A continuation byte in `lo..hi`, then two plain continuation bytes. -/
def validTail3 (lo hi : Nat) : List Nat → Bool
  | b1 :: r => decide (lo ≤ b1 ∧ b1 ≤ hi) && validTail2 0x80 0xBF r
  | [] => false

end

/-- An ASCII byte passes through the validator. -/
theorem validUtf8_cons_low {b : Nat} {r : List Nat} (hb : b ≤ 0x7F) :
    validUtf8 (b :: r) = validUtf8 r := by
  rw [validUtf8.eq_def]
  dsimp only
  rw [if_pos hb]

/-- A lone non-ASCII byte is not valid UTF-8. -/
theorem validUtf8_one_false {b : Nat} (hb : 0x7F < b) : validUtf8 [b] = false := by
  rw [validUtf8.eq_def]
  dsimp only
  rw [if_neg (by omega)]
  split
  · rfl
  · split
    · rfl
    · split
      · rfl
      · rfl

/-- Unfolding at a 2-byte leading byte. -/
theorem validUtf8_cons2 {b b1 : Nat} {r : List Nat} (hb : 0xC2 ≤ b) (hb' : b ≤ 0xDF) :
    validUtf8 (b :: b1 :: r) = (isCont b1 && validUtf8 r) := by
  rw [validUtf8.eq_def]
  dsimp only
  rw [if_neg (by omega), if_pos ⟨hb, hb'⟩]
  rfl

/-- Two bytes starting with a 3- or 4-byte leading byte are not valid. -/
theorem validUtf8_two_false {b b1 : Nat} (hb : 0xE0 ≤ b) : validUtf8 [b, b1] = false := by
  rw [validUtf8.eq_def]
  dsimp only
  rw [if_neg (by omega), if_neg (by omega)]
  split
  · show (decide (cLo b ≤ b1 ∧ b1 ≤ cHi b) && false) = false
    exact Bool.and_false _
  · split
    · show (decide (cLo b ≤ b1 ∧ b1 ≤ cHi b) && false) = false
      exact Bool.and_false _
    · rfl

/-- Unfolding at a 3-byte leading byte. -/
theorem validUtf8_cons3 {b b1 b2 : Nat} {r : List Nat} (hb : 0xE0 ≤ b) (hb' : b ≤ 0xEF) :
    validUtf8 (b :: b1 :: b2 :: r) = (isCont1 b b1 && (isCont b2 && validUtf8 r)) := by
  rw [validUtf8.eq_def]
  dsimp only
  rw [if_neg (by omega), if_neg (by omega), if_pos ⟨hb, hb'⟩]
  rfl

/-- Three bytes starting with a 4-byte leading byte are not valid. -/
theorem validUtf8_three_false {b b1 b2 : Nat} (hb : 0xF0 ≤ b) :
    validUtf8 [b, b1, b2] = false := by
  rw [validUtf8.eq_def]
  dsimp only
  rw [if_neg (by omega), if_neg (by omega), if_neg (by omega)]
  split
  · show (decide (cLo b ≤ b1 ∧ b1 ≤ cHi b) && (decide (0x80 ≤ b2 ∧ b2 ≤ 0xBF) && false))
        = false
    rw [Bool.and_false, Bool.and_false]
  · rfl

/-- Unfolding at a 4-byte leading byte. -/
theorem validUtf8_cons4 {b b1 b2 b3 : Nat} {r : List Nat}
    (hb : 0xF0 ≤ b) (hb' : b ≤ 0xF4) :
    validUtf8 (b :: b1 :: b2 :: b3 :: r)
      = (isCont1 b b1 && (isCont b2 && (isCont b3 && validUtf8 r))) := by
  rw [validUtf8.eq_def]
  dsimp only
  rw [if_neg (by omega), if_neg (by omega), if_neg (by omega), if_pos ⟨hb, hb'⟩]
  rfl

/-- A byte outside every leading range rejects the whole input. -/
theorem validUtf8_cons_bad {b : Nat} {r : List Nat} (h1 : ¬b ≤ 0x7F)
    (h2 : ¬(0xC2 ≤ b ∧ b ≤ 0xDF)) (h3 : ¬(0xE0 ≤ b ∧ b ≤ 0xEF))
    (h4 : ¬(0xF0 ≤ b ∧ b ≤ 0xF4)) : validUtf8 (b :: r) = false := by
  rw [validUtf8.eq_def]
  dsimp only
  rw [if_neg h1, if_neg h2, if_neg h3, if_neg h4]

/-- Splitting a valid byte sequence at a position whose prefix is itself
valid leaves a valid suffix: UTF-8 characters are parsed left to right, so a
valid prefix must end on a character boundary. -/
theorem validUtf8_take_drop :
    ∀ (n : Nat) (l : List Nat), l.length ≤ n →
      ∀ (i : Nat), validUtf8 l = true → validUtf8 (l.take i) = true →
        validUtf8 (l.drop i) = true := by
  intro n
  induction n with
  | zero =>
    intro l hl i hv ht
    cases l with
    | nil => simpa using hv
    | cons b r => simp at hl
  | succ n ih =>
    intro l hl i hv ht
    cases l with
    | nil => simpa using hv
    | cons b r =>
      cases i with
      | zero => simpa using hv
      | succ j =>
        rw [List.take_succ_cons] at ht
        rw [List.drop_succ_cons]
        by_cases hb1 : b ≤ 0x7F
        · rw [validUtf8_cons_low hb1] at hv ht
          exact ih r (by simp at hl; omega) j hv ht
        · by_cases hb2 : 0xC2 ≤ b ∧ b ≤ 0xDF
          · cases r with
            | nil =>
              rw [validUtf8_one_false (by omega)] at hv
              simp at hv
            | cons b1 r1 =>
              rw [validUtf8_cons2 hb2.1 hb2.2, Bool.and_eq_true] at hv
              cases j with
              | zero =>
                rw [List.take_zero, validUtf8_one_false (by omega)] at ht
                simp at ht
              | succ k =>
                rw [List.take_succ_cons, validUtf8_cons2 hb2.1 hb2.2,
                  Bool.and_eq_true] at ht
                rw [List.drop_succ_cons]
                exact ih r1 (by simp at hl; omega) k hv.2 ht.2
          · by_cases hb3 : 0xE0 ≤ b ∧ b ≤ 0xEF
            · cases r with
              | nil =>
                rw [validUtf8_one_false (by omega)] at hv
                simp at hv
              | cons b1 r1 =>
                cases r1 with
                | nil =>
                  rw [validUtf8_two_false hb3.1] at hv
                  simp at hv
                | cons b2 r2 =>
                  rw [validUtf8_cons3 hb3.1 hb3.2, Bool.and_eq_true,
                    Bool.and_eq_true] at hv
                  cases j with
                  | zero =>
                    rw [List.take_zero, validUtf8_one_false (by omega)] at ht
                    simp at ht
                  | succ k =>
                    rw [List.take_succ_cons] at ht
                    cases k with
                    | zero =>
                      rw [List.take_zero, validUtf8_two_false hb3.1] at ht
                      simp at ht
                    | succ m =>
                      rw [List.take_succ_cons, validUtf8_cons3 hb3.1 hb3.2,
                        Bool.and_eq_true, Bool.and_eq_true] at ht
                      rw [List.drop_succ_cons, List.drop_succ_cons]
                      exact ih r2 (by simp at hl; omega) m hv.2.2 ht.2.2
            · by_cases hb4 : 0xF0 ≤ b ∧ b ≤ 0xF4
              · cases r with
                | nil =>
                  rw [validUtf8_one_false (by omega)] at hv
                  simp at hv
                | cons b1 r1 =>
                  cases r1 with
                  | nil =>
                    rw [validUtf8_two_false (by omega)] at hv
                    simp at hv
                  | cons b2 r2 =>
                    cases r2 with
                    | nil =>
                      rw [validUtf8_three_false hb4.1] at hv
                      simp at hv
                    | cons b3 r3 =>
                      rw [validUtf8_cons4 hb4.1 hb4.2, Bool.and_eq_true,
                        Bool.and_eq_true, Bool.and_eq_true] at hv
                      cases j with
                      | zero =>
                        rw [List.take_zero, validUtf8_one_false (by omega)] at ht
                        simp at ht
                      | succ k =>
                        rw [List.take_succ_cons] at ht
                        cases k with
                        | zero =>
                          rw [List.take_zero, validUtf8_two_false (by omega)] at ht
                          simp at ht
                        | succ m =>
                          rw [List.take_succ_cons] at ht
                          cases m with
                          | zero =>
                            rw [List.take_zero, validUtf8_three_false hb4.1] at ht
                            simp at ht
                          | succ p =>
                            rw [List.take_succ_cons, validUtf8_cons4 hb4.1 hb4.2,
                              Bool.and_eq_true, Bool.and_eq_true,
                              Bool.and_eq_true] at ht
                            rw [List.drop_succ_cons, List.drop_succ_cons,
                              List.drop_succ_cons]
                            exact ih r3 (by simp at hl; omega) p hv.2.2.2 ht.2.2.2
              · rw [validUtf8_cons_bad hb1 hb2 hb3 hb4] at hv
                simp at hv

/-- The crate's `String` (src/string.rs line 17): a raw byte buffer
(`Vec<u8>`, bytes as `Nat`).  Nothing in the structure itself enforces
UTF-8 validity. -/
structure String where
  bytes : List Nat
deriving DecidableEq, Repr

namespace String

/-- `String::from_bytes` (src/string.rs lines 55-62): validate the bytes
with `std::str::from_utf8`, then store them unchanged. -/
def from_bytes (bs : List Nat) : Except ErrMsg String :=
  if validUtf8 bs then .ok ⟨bs⟩ else .error "Invalid UTF-8"

/-- `String::substring` (src/string.rs lines 258-269): pure byte-index
range checks, then the raw slice `bytes[start..end]` — no re-validation. -/
def substring (s : String) (start stop : Nat) : Except ErrMsg String :=
  if start > s.bytes.length ∨ stop > s.bytes.length ∨ start > stop then
    .error "Invalid substring indices"
  else
    .ok ⟨(s.bytes.drop start).take (stop - start)⟩

end String

/-- C8 counterexample: the two-byte sequence `C3 A9` (the character `é`) is
valid UTF-8 and accepted by `from_bytes`, yet `substring(0, 1)` on it
returns `Ok` with the single byte `C3`, which is not valid UTF-8 — so a
String derived by `substring` from a valid String need not be valid. -/
theorem c8_counterexample :
    validUtf8 [0xC3, 0xA9] = true ∧
    String.from_bytes [0xC3, 0xA9] = .ok ⟨[0xC3, 0xA9]⟩ ∧
    (String.mk [0xC3, 0xA9]).substring 0 1 = .ok ⟨[0xC3]⟩ ∧
    validUtf8 [0xC3] = false := by
  refine ⟨rfl, rfl, ?_, rfl⟩
  rw [String.substring, if_neg (by simp)]
  rfl

/-- C8 amended: validity is checked at the construction boundary —
`from_bytes` rejects byte sequences that are not valid UTF-8, and (proven
here in both directions, so acceptance is exact) returns `Ok` on valid
UTF-8 storing the bytes unchanged — and a `substring` of a valid String is
itself valid UTF-8 provided `start` and `end` are character boundaries
(positions whose byte prefix is valid UTF-8); a substring that splits a
multi-byte character is returned unvalidated and can be invalid, as the
counterexample shows. -/
theorem c8_utf8_validity (bs : List Nat) (s : String) (start stop : Nat)
    (hs : validUtf8 s.bytes = true)
    (hstart : validUtf8 (s.bytes.take start) = true)
    (hstop : validUtf8 (s.bytes.take stop) = true)
    (hle : start ≤ stop) (hstople : stop ≤ s.bytes.length) :
    (validUtf8 bs = true → String.from_bytes bs = .ok ⟨bs⟩) ∧
    (∀ t, String.from_bytes bs = .ok t → t.bytes = bs ∧ validUtf8 bs = true) ∧
    (validUtf8 bs = false → String.from_bytes bs = .error "Invalid UTF-8") ∧
    ∃ t, s.substring start stop = .ok t ∧ validUtf8 t.bytes = true := by
  refine ⟨?_, ?_, ?_, ?_⟩
  · intro hv
    rw [String.from_bytes, if_pos hv]
  · intro t ht
    rw [String.from_bytes] at ht
    by_cases hv : validUtf8 bs = true
    · rw [if_pos hv] at ht
      cases ht
      exact ⟨rfl, hv⟩
    · rw [if_neg hv] at ht
      cases ht
  · intro hv
    rw [String.from_bytes, if_neg (by simp [hv])]
  · have hcond : ¬(start > s.bytes.length ∨ stop > s.bytes.length ∨ start > stop) := by
      push_neg
      omega
    refine ⟨⟨(s.bytes.drop start).take (stop - start)⟩, ?_, ?_⟩
    · rw [String.substring, if_neg hcond]
    · have htake : (s.bytes.take stop).take start = s.bytes.take start := by
        rw [List.take_take]
        congr 1
        omega
      have hmid : validUtf8 ((s.bytes.take stop).drop start) = true := by
        refine validUtf8_take_drop (s.bytes.take stop).length _ le_rfl start hstop ?_
        rw [htake]
        exact hstart
      rw [List.drop_take] at hmid
      exact hmid

/-- Witness for the amended C8 on `"aé"` (`61 C3 A9`), slicing at the
character boundaries 1 and 3. -/
theorem c8_witness :
    validUtf8 [0x61, 0xC3, 0xA9] = true ∧
    ∃ t, (String.mk [0x61, 0xC3, 0xA9]).substring 1 3 = .ok t ∧
      validUtf8 t.bytes = true :=
  ⟨rfl, (c8_utf8_validity [] (String.mk [0x61, 0xC3, 0xA9]) 1 3 rfl rfl rfl
    (by omega) (by simp)).2.2.2⟩

end QuantumStd
